import Mathlib

/-!
Shallow embedding of the Telegram file-download bot (`main.go`, Client-API /
MTProto variant) together with proofs of the specification claims.

Strings are modelled as `List Char` (`Str`), filesystems as lists of existing
paths, and the effectful handlers as functions producing a trace of `Action`s.
All definitions are translated from the Go source; external library calls
(`path/filepath`, `strings`, `os`) are modelled by their documented semantics.
-/

abbrev Str := List Char

/-! ## Decimal rendering (Go `fmt.Sprintf("%d", i)` for non-negative ints) -/

/-- One decimal digit as a character (`'0'` .. `'9'`). -/
def digitCh (d : Nat) : Char := Char.ofNat (48 + d)

/-- Decimal digits of `n`, most significant first; `fuel`-bounded structural
recursion (any `fuel ≥ n` gives the exact digits). -/
def decAux : Nat → Nat → Str
  | _, 0 => []
  | 0, _ => []
  | fuel + 1, n => decAux fuel (n / 10) ++ [digitCh (n % 10)]

/-- Go's decimal rendering of a natural number (`strconv`/`fmt` `%d`). -/
def natToDec (n : Nat) : Str :=
  if n = 0 then ['0'] else decAux n n

/-- Go's `%d` on a (possibly negative) integer. -/
def intToDec (i : Int) : Str :=
  if i < 0 then '-' :: natToDec i.natAbs else natToDec i.toNat

/-- Decode a digit string back to a number (left inverse used for injectivity). -/
def decVal (s : Str) : Nat :=
  s.foldl (fun a c => a * 10 + (c.toNat - 48)) 0

theorem decAux_succ (fuel n : Nat) :
    decAux (fuel + 1) (n + 1) = decAux fuel ((n + 1) / 10) ++ [digitCh ((n + 1) % 10)] :=
  rfl

theorem decVal_append (s t : Str) :
    decVal (s ++ t) = t.foldl (fun a c => a * 10 + (c.toNat - 48)) (decVal s) := by
  simp [decVal, List.foldl_append]

theorem digitCh_toNat {d : Nat} (h : d < 10) : (digitCh d).toNat = 48 + d := by
  interval_cases d <;> decide

theorem decVal_decAux (fuel n : Nat) (h : n ≤ fuel) : decVal (decAux fuel n) = n := by
  induction fuel using Nat.strong_induction_on generalizing n with
  | _ fuel ih =>
    match fuel, n with
    | _, 0 => cases fuel <;> simp [decAux, decVal]
    | 0, n + 1 => omega
    | fuel + 1, n + 1 =>
      have hdiv : (n + 1) / 10 ≤ fuel := by
        have := Nat.div_le_self (n + 1) 10
        have := Nat.div_lt_self (Nat.succ_pos n) (by norm_num : 1 < 10)
        omega
      rw [decAux_succ, decVal_append, ih fuel (Nat.lt_succ_self fuel) _ hdiv]
      simp only [List.foldl]
      rw [digitCh_toNat (Nat.mod_lt _ (by norm_num))]
      omega

theorem decVal_natToDec (n : Nat) : decVal (natToDec n) = n := by
  by_cases h : n = 0
  · simp [natToDec, h, decVal, digitCh]
  · simp [natToDec, h, decVal_decAux n n le_rfl]

theorem natToDec_injective : Function.Injective natToDec := by
  intro a b h
  have := decVal_natToDec a
  rw [h, decVal_natToDec] at this
  omega

theorem decAux_ne_nil (fuel n : Nat) (h1 : 0 < n) (h2 : n ≤ fuel) :
    decAux fuel n ≠ [] := by
  match fuel, n with
  | 0, n => omega
  | fuel + 1, n + 1 => simp [decAux]

theorem natToDec_ne_nil (n : Nat) : natToDec n ≠ [] := by
  by_cases h : n = 0
  · simp [natToDec, h]
  · simp only [natToDec, if_neg h]
    exact decAux_ne_nil n n (Nat.pos_of_ne_zero h) le_rfl

/-- Every character of a rendered decimal is a proper digit (so never `'/'`). -/
theorem decAux_digits (fuel n : Nat) :
    ∀ c ∈ decAux fuel n, ∃ d, d < 10 ∧ c = digitCh d := by
  induction fuel using Nat.strong_induction_on generalizing n with
  | _ fuel ih =>
    match fuel, n with
    | _, 0 => cases fuel <;> simp [decAux]
    | 0, n + 1 => simp [decAux]
    | fuel + 1, n + 1 =>
      intro c hc
      rw [decAux_succ] at hc
      rcases List.mem_append.mp hc with h | h
      · exact ih fuel (Nat.lt_succ_self fuel) _ c h
      · simp only [List.mem_singleton] at h
        exact ⟨(n + 1) % 10, Nat.mod_lt _ (by norm_num), h⟩

theorem natToDec_digits (n : Nat) :
    ∀ c ∈ natToDec n, ∃ d, d < 10 ∧ c = digitCh d := by
  by_cases h : n = 0
  · intro c hc
    simp [natToDec, h] at hc
    exact ⟨0, by norm_num, by simp [hc, digitCh]⟩
  · simp only [natToDec, if_neg h]
    exact decAux_digits n n

theorem slash_not_mem_natToDec (n : Nat) : '/' ∉ natToDec n := by
  intro hmem
  obtain ⟨d, hd, hc⟩ := natToDec_digits n '/' hmem
  interval_cases d <;> simp_all [digitCh]

/-! ## Generic character-list helpers (Go `strings` package) -/

/-- Go `strings.Trim(s, cutset)`: remove leading and trailing characters that
are members of `cut`. -/
def trimChars (s : Str) (cut : List Char) : Str :=
  ((s.dropWhile (· ∈ cut)).reverse.dropWhile (· ∈ cut)).reverse

/-- ASCII whitespace, the cutset of Go `strings.TrimSpace` on ASCII input. -/
def spaceChars : List Char := [' ', '\t', '\n', '\r', '\x0b', '\x0c']

/-- Go `strings.TrimSpace` (modelled for ASCII whitespace). -/
def trimSpace (s : Str) : Str := trimChars s spaceChars

/-- Go `strings.TrimSuffix(s, suffix)`. -/
def trimSuffix (s suffix : Str) : Str :=
  if suffix.isSuffixOf s then s.take (s.length - suffix.length) else s

/-- Go `strings.ToLower` (modelled for ASCII via `Char.toLower`). -/
def toLowerStr (s : Str) : Str := s.map Char.toLower

theorem trimChars_sublist (s : Str) (cut : List Char) : (trimChars s cut).Sublist s := by
  unfold trimChars
  have h1 : ((s.dropWhile (· ∈ cut)).reverse.dropWhile (· ∈ cut)).Sublist
      (s.dropWhile (· ∈ cut)).reverse := List.dropWhile_sublist _
  have h2 := h1.reverse
  simp only [List.reverse_reverse] at h2
  exact h2.trans (List.dropWhile_sublist _)

/-! ## Go `path/filepath` on unix (separator `'/'`) -/

/-- Go `strings.Split(s, "/")`: split into (possibly empty) slash-free parts. -/
def splitSlash : Str → List Str
  | [] => [[]]
  | c :: rest =>
    match splitSlash rest with
    | [] => [[]]
    | s :: ss => if c = '/' then [] :: s :: ss else (c :: s) :: ss

/-- Join path elements with `'/'`. -/
def joinSlash : List Str → Str :=
  fun l => (l.intersperse ['/']).flatten

/-- One step of `filepath.Clean`'s element processing: skip empty and `"."`
elements, resolve `".."` against the stack (head = most recent element),
push everything else. -/
def cleanStep (rooted : Bool) (stack : List Str) (el : Str) : List Str :=
  if el = [] ∨ el = ['.'] then stack
  else if el = ['.', '.'] then
    match stack with
    | [] => if rooted then [] else [['.', '.']]
    | top :: rest => if top = ['.', '.'] then el :: stack else rest
  else el :: stack

/-- Go `filepath.Clean` (unix): shortest lexically-equivalent path. -/
def pathClean (p : Str) : Str :=
  match p with
  | [] => ['.']
  | c :: _ =>
    let rooted : Bool := decide (c = '/')
    let elems := ((splitSlash p).foldl (cleanStep rooted) []).reverse
    if elems = [] then (if rooted then ['/'] else ['.'])
    else (if rooted then ['/'] else []) ++ joinSlash elems

/-- Go `filepath.Ext`: suffix of the final path element starting at its final
dot, scanning backwards and stopping at a separator; `acc` holds the
characters already passed over, in original order. -/
def extAux : Str → Str → Str
  | [], _ => []
  | c :: rest, acc =>
    if c = '/' then []
    else if c = '.' then c :: acc
    else extAux rest (c :: acc)

/-- Go `filepath.Ext(path)`. -/
def filepathExt (p : Str) : Str := extAux p.reverse []

/-- Go `filepath.Base(path)`: last element after stripping trailing slashes;
`"."` for the empty path, `"/"` for all-slash paths. -/
def filepathBase (p : Str) : Str :=
  if p = [] then ['.']
  else
    let q := (p.reverse.dropWhile (· = '/')).reverse
    let b := (q.reverse.takeWhile (· ≠ '/')).reverse
    if b = [] then ['/'] else b

/-- The directory part of a path: everything up to and including the final
separator (Go `filepath.Dir` before cleaning). -/
def dirPart (p : Str) : Str := (p.reverse.dropWhile (· ≠ '/')).reverse

/-- Go `filepath.Dir(path)` = `Clean` of the directory part. -/
def filepathDir (p : Str) : Str := pathClean (dirPart p)

/-- Go `filepath.Join(a, b)`: empty elements are dropped, the rest joined
with `'/'` and cleaned; all-empty input yields the empty path. -/
def filepathJoin (a b : Str) : Str :=
  if a = [] ∧ b = [] then []
  else if a = [] then pathClean b
  else if b = [] then pathClean a
  else pathClean (a ++ '/' :: b)

/-! ## Structural lemmas about path splitting and cleaning -/

theorem splitSlash_ne_nil (p : Str) : splitSlash p ≠ [] := by
  cases p with
  | nil => simp [splitSlash]
  | cons c rest =>
    simp only [splitSlash]
    rcases h : splitSlash rest with _ | ⟨s, ss⟩
    · simp
    · by_cases hc : c = '/' <;> simp [hc]

theorem splitSlash_no_slash (el : Str) (h : '/' ∉ el) : splitSlash el = [el] := by
  induction el with
  | nil => simp [splitSlash]
  | cons c rest ih =>
    have hc : c ≠ '/' := fun hc => h (by simp [hc])
    have hrest : '/' ∉ rest := fun hm => h (by simp [hm])
    simp [splitSlash, ih hrest, hc]

theorem splitSlash_append (a b : Str) :
    splitSlash (a ++ '/' :: b) = splitSlash a ++ splitSlash b := by
  induction a with
  | nil =>
    rcases h : splitSlash b with _ | ⟨s, ss⟩
    · exact absurd h (splitSlash_ne_nil b)
    · simp [splitSlash, h]
  | cons c rest ih =>
    simp only [List.cons_append, splitSlash, List.append_eq, ih]
    rcases h2 : splitSlash rest with _ | ⟨t, ts⟩
    · exact absurd h2 (splitSlash_ne_nil _)
    rcases h3 : splitSlash b with _ | ⟨u, us⟩
    · exact absurd h3 (splitSlash_ne_nil _)
    by_cases hc : c = '/' <;> simp [hc]

theorem cleanStep_push (rooted : Bool) (stack : List Str) (el : Str)
    (h1 : el ≠ []) (h2 : el ≠ ['.']) (h3 : el ≠ ['.', '.']) :
    cleanStep rooted stack el = el :: stack := by
  unfold cleanStep
  simp [h1, h2, h3]

theorem cleanStep_skip_nil (rooted : Bool) (stack : List Str) :
    cleanStep rooted stack [] = stack := by
  simp [cleanStep]

theorem joinSlash_cons (x : Str) (xs : List Str) (h : xs ≠ []) :
    joinSlash (x :: xs) = x ++ '/' :: joinSlash xs := by
  unfold joinSlash
  rcases xs with _ | ⟨y, ys⟩
  · simp at h
  · simp [List.intersperse]

theorem joinSlash_append_one (xs : List Str) (el : Str) (h : xs ≠ []) :
    joinSlash (xs ++ [el]) = joinSlash xs ++ '/' :: el := by
  induction xs with
  | nil => simp at h
  | cons x rest ih =>
    rcases Decidable.em (rest = []) with hr | hr
    · subst hr
      simp [joinSlash, List.intersperse]
    · have hne : rest ++ [el] ≠ [] := by simp
      rw [List.cons_append, joinSlash_cons x (rest ++ [el]) hne, ih hr,
        joinSlash_cons x rest hr]
      simp

theorem cleanStep_mem_ne_nil (rooted : Bool) (stack : List Str) (el : Str)
    (h : ∀ x ∈ stack, x ≠ []) : ∀ x ∈ cleanStep rooted stack el, x ≠ [] := by
  intro x hx
  by_cases h1 : el = [] ∨ el = ['.']
  · rw [cleanStep.eq_def, if_pos h1] at hx
    exact h x hx
  by_cases h2 : el = ['.', '.']
  · rw [cleanStep.eq_def, if_neg h1, if_pos h2] at hx
    rcases stack with _ | ⟨top, rs⟩
    · cases rooted <;> simp at hx
      subst hx
      simp
    · dsimp only at hx
      by_cases ht : top = ['.', '.']
      · rw [if_pos ht] at hx
        rcases List.mem_cons.mp hx with h3 | h3
        · subst h3; rw [h2]; simp
        · exact h x h3
      · rw [if_neg ht] at hx
        exact h x (List.mem_cons_of_mem _ hx)
  · rw [cleanStep.eq_def, if_neg h1, if_neg h2] at hx
    rcases List.mem_cons.mp hx with h3 | h3
    · subst h3
      intro hnil
      exact h1 (Or.inl hnil)
    · exact h x h3

theorem foldl_cleanStep_ne_nil (rooted : Bool) (els : List Str) (stack : List Str)
    (h : ∀ x ∈ stack, x ≠ []) : ∀ x ∈ els.foldl (cleanStep rooted) stack, x ≠ [] := by
  induction els generalizing stack with
  | nil => exact h
  | cons el rest ih =>
    rw [List.foldl_cons]
    exact ih _ (cleanStep_mem_ne_nil rooted stack el h)

theorem pathClean_cons (c : Char) (rest : Str) :
    pathClean (c :: rest) =
      (if ((splitSlash (c :: rest)).foldl (cleanStep (decide (c = '/'))) []).reverse = [] then
        (if decide (c = '/') then ['/'] else ['.'])
      else (if decide (c = '/') then ['/'] else []) ++
        joinSlash ((splitSlash (c :: rest)).foldl (cleanStep (decide (c = '/'))) []).reverse) :=
  rfl

theorem joinSlash_head_ne_nil (e : Str) (es : List Str) (he : e ≠ []) :
    joinSlash (e :: es) ≠ [] := by
  rcases Decidable.em (es = []) with h | h
  · subst h
    simpa [joinSlash, List.intersperse] using he
  · rw [joinSlash_cons e es h]
    intro hc
    rw [List.append_eq_nil] at hc
    exact he hc.1

theorem pathClean_ne_nil (p : Str) : pathClean p ≠ [] := by
  rcases p with _ | ⟨c, rest⟩
  · simp [pathClean]
  rw [pathClean_cons]
  by_cases he : ((splitSlash (c :: rest)).foldl (cleanStep (decide (c = '/'))) []).reverse = []
  · rw [if_pos he]
    by_cases hc : c = '/' <;> simp [hc]
  · rw [if_neg he]
    rcases hel : ((splitSlash (c :: rest)).foldl (cleanStep (decide (c = '/'))) []).reverse
      with _ | ⟨e, es⟩
    · exact absurd hel he
    have he' : e ≠ [] := by
      apply foldl_cleanStep_ne_nil (decide (c = '/')) (splitSlash (c :: rest)) [] (by simp)
      rw [← List.mem_reverse, hel]
      simp
    intro hcontra
    rw [List.append_eq_nil] at hcontra
    exact joinSlash_head_ne_nil e es he' hcontra.2

/-- Cleaning `d ++ "/" ++ el` for a normal final element `el` appends `el`
to a prefix depending only on `d`. -/
theorem pathClean_elem_form (d : Str) (hd : d ≠ []) :
    ∃ P, ∀ el, '/' ∉ el → el ≠ [] → el ≠ ['.'] → el ≠ ['.', '.'] →
      pathClean (d ++ '/' :: el) = P ++ el := by
  rcases d with _ | ⟨c, drest⟩
  · simp at hd
  refine ⟨(if decide (c = '/') then ['/'] else []) ++
    (if ((splitSlash (c :: drest)).foldl (cleanStep (decide (c = '/'))) []).reverse = [] then []
     else joinSlash ((splitSlash (c :: drest)).foldl (cleanStep (decide (c = '/'))) []).reverse
       ++ ['/']), ?_⟩
  intro el hslash hne hdot hdd
  have hsplit : splitSlash ((c :: drest) ++ '/' :: el)
      = splitSlash (c :: drest) ++ [el] := by
    rw [splitSlash_append, splitSlash_no_slash el hslash]
  have hfold : (splitSlash ((c :: drest) ++ '/' :: el)).foldl
        (cleanStep (decide (c = '/'))) []
      = el :: (splitSlash (c :: drest)).foldl (cleanStep (decide (c = '/'))) [] := by
    rw [hsplit, List.foldl_append, List.foldl_cons, List.foldl_nil,
      cleanStep_push _ _ el hne hdot hdd]
  rw [List.cons_append, pathClean_cons, ← List.cons_append, hfold]
  rw [List.reverse_cons]
  have hne2 : (List.foldl (cleanStep (decide (c = '/'))) [] (splitSlash (c :: drest))).reverse
      ++ [el] ≠ [] := by simp
  rw [if_neg hne2]
  by_cases hrev : ((splitSlash (c :: drest)).foldl (cleanStep (decide (c = '/'))) []).reverse = []
  · rw [hrev, if_pos rfl]
    simp [joinSlash, List.intersperse]
  · rw [if_neg hrev, joinSlash_append_one _ el hrev]
    simp

/-- Cleaning collapses a doubled separator. -/
theorem pathClean_slash_slash (d : Str) (hd : d ≠ []) (el : Str) :
    pathClean (d ++ '/' :: '/' :: el) = pathClean (d ++ '/' :: el) := by
  rcases d with _ | ⟨c, drest⟩
  · simp at hd
  have hsp : splitSlash ('/' :: el) = [] :: splitSlash el := by
    rcases h : splitSlash el with _ | ⟨s, ss⟩
    · exact absurd h (splitSlash_ne_nil el)
    · simp [splitSlash, h]
  have h1 : splitSlash ((c :: drest) ++ '/' :: '/' :: el)
      = splitSlash (c :: drest) ++ [] :: splitSlash el := by
    rw [splitSlash_append (c :: drest) ('/' :: el), hsp]
  have h2 : splitSlash ((c :: drest) ++ '/' :: el)
      = splitSlash (c :: drest) ++ splitSlash el := splitSlash_append _ _
  rw [List.cons_append, pathClean_cons, ← List.cons_append, h1]
  rw [List.cons_append, pathClean_cons, ← List.cons_append, h2]
  rw [List.foldl_append, List.foldl_append, List.foldl_cons, cleanStep_skip_nil]

theorem splitSlash_all_slash (p : Str) (h : ∀ c ∈ p, c = '/') :
    ∀ x ∈ splitSlash p, x = [] := by
  induction p with
  | nil => simp [splitSlash]
  | cons c rest ih =>
    have hc : c = '/' := h c (by simp)
    rcases hsp : splitSlash rest with _ | ⟨s, ss⟩
    · exact absurd hsp (splitSlash_ne_nil rest)
    · intro x hx
      rw [splitSlash, hsp] at hx
      dsimp only at hx
      rw [if_pos hc] at hx
      rcases List.mem_cons.mp hx with h1 | h1
      · exact h1
      · exact ih (fun a ha => h a (by simp [ha])) x (by rw [hsp]; exact h1)

theorem foldl_cleanStep_all_nil (rooted : Bool) (els : List Str)
    (h : ∀ x ∈ els, x = []) (stack : List Str) :
    els.foldl (cleanStep rooted) stack = stack := by
  induction els generalizing stack with
  | nil => rfl
  | cons e rest ih =>
    have he : e = [] := h e (by simp)
    rw [List.foldl_cons, he, cleanStep_skip_nil]
    exact ih (fun x hx => h x (by simp [hx])) stack

theorem pathClean_all_slash (p : Str) (hne : p ≠ []) (h : ∀ c ∈ p, c = '/') :
    pathClean p = ['/'] := by
  rcases p with _ | ⟨c, rest⟩
  · simp at hne
  have hc : c = '/' := h c (by simp)
  rw [pathClean_cons, foldl_cleanStep_all_nil _ _ (splitSlash_all_slash _ h) []]
  simp [hc]

theorem extAux_no_slash (rev acc : Str) (hacc : '/' ∉ acc) : '/' ∉ extAux rev acc := by
  induction rev generalizing acc with
  | nil => simp [extAux]
  | cons c rest ih =>
    by_cases h1 : c = '/'
    · simp [extAux, h1]
    · by_cases h2 : c = '.'
      · rw [extAux, if_neg h1, if_pos h2]
        simp [h2, hacc]
      · rw [extAux, if_neg h1, if_neg h2]
        exact ih _ (by simp [hacc, Ne.symm h1])

theorem filepathExt_no_slash (p : Str) : '/' ∉ filepathExt p :=
  extAux_no_slash p.reverse [] (by simp)

theorem dropWhile_head_not {α : Type} (q : α → Bool) (l : List α) (c : α) (cs : List α)
    (h : l.dropWhile q = c :: cs) : q c = false := by
  induction l with
  | nil => simp [List.dropWhile] at h
  | cons a rest ih =>
    rw [List.dropWhile_cons] at h
    by_cases hq : q a = true
    · exact ih (by rwa [if_pos hq] at h)
    · rw [if_neg hq] at h
      cases h
      simpa using hq

theorem filepathBase_cases (p : Str) :
    filepathBase p = ['/'] ∨ '/' ∉ filepathBase p := by
  by_cases hp : p = []
  · right
    simp [filepathBase, hp]
  rw [filepathBase, if_neg hp]
  by_cases hb :
      ((((p.reverse.dropWhile (· = '/')).reverse).reverse.takeWhile (· ≠ '/')).reverse
        : Str) = []
  · left
    simp only [hb, if_pos]
  · right
    rw [if_neg hb]
    intro hmem
    have hmem2 := List.mem_reverse.mp hmem
    have := List.mem_takeWhile_imp hmem2
    simp at this

theorem filepathBase_slash (p : Str) (h : filepathBase p = ['/']) :
    p ≠ [] ∧ ∀ c ∈ p, c = '/' := by
  by_cases hp : p = []
  · rw [filepathBase, if_pos hp] at h
    simp at h
  refine ⟨hp, ?_⟩
  rw [filepathBase, if_neg hp] at h
  by_cases hb :
      ((((p.reverse.dropWhile (· = '/')).reverse).reverse.takeWhile (· ≠ '/')).reverse
        : Str) = []
  · rcases hX : p.reverse.dropWhile (fun c => decide (c = '/')) with _ | ⟨c, cs⟩
    · intro a ha
      have hall := List.dropWhile_eq_nil_iff.mp hX
      have := hall a (List.mem_reverse.mpr ha)
      simpa using this
    · exfalso
      have hc1 := dropWhile_head_not (fun c => decide (c = '/')) p.reverse c cs hX
      simp only [decide_eq_false_iff_not] at hc1
      rw [List.reverse_reverse, hX] at hb
      rw [List.takeWhile_cons] at hb
      simp [hc1] at hb
  · exfalso
    rw [if_neg hb] at h
    have hmem :
        '/' ∈ ((((p.reverse.dropWhile (· = '/')).reverse).reverse.takeWhile (· ≠ '/')).reverse
          : Str) := by
      rw [h]; simp
    have := List.mem_takeWhile_imp (List.mem_reverse.mp hmem)
    simp at this

/-! ## Repository functions: `sanitizeFilename`, `isAllowedFileType`,
`getUniqueFilePath` (main.go, Client-API variant) -/

/-- The characters `sanitizeFilename` replaces (`invalidChars` in main.go). -/
def invalidChars : List Char := ['/', '\\', ':', '*', '?', '"', '<', '>', '|']

/-- Go `strings.ReplaceAll(s, string(c), "_")` for a single character
pattern: a pointwise character replacement. -/
def replaceAllChar (s : Str) (c : Char) : Str :=
  s.map (fun x => if x = c then '_' else x)

/-- `sanitizeFilename` (main.go): replace each invalid character with an
underscore, trim leading/trailing spaces and dots, and fall back to
`"unnamed_file"` when the result is empty. -/
def sanitizeFilename (filename : Str) : Str :=
  let replaced := invalidChars.foldl replaceAllChar filename
  let trimmed := trimChars replaced [' ', '.']
  if trimmed = [] then "unnamed_file".data else trimmed

/-- `isAllowedFileType` (main.go): with no restrictions everything passes;
otherwise lower-case the extension, strip its leading dot, and test
membership in the allow-list (`slices.Contains`). -/
def isAllowedFileType (filename : Str) (allowedExtensions : List Str) : Bool :=
  if allowedExtensions = [] then true
  else
    let ext0 := toLowerStr (filepathExt filename)
    let ext := if ext0 ≠ [] ∧ ext0.head? = some '.' then ext0.tail else ext0
    allowedExtensions.contains ext

/-- The extension as rendered into `handleMessage`'s rejection message
(lower-cased, leading dot stripped) — the same computation `handleMessage`
inlines before building the error text. -/
def extForMessage (fileName : Str) : Str :=
  let ext0 := toLowerStr (filepathExt fileName)
  if ext0 ≠ [] ∧ ext0.head? = some '.' then ext0.tail else ext0

/-- The `i`-th probe candidate of `getUniqueFilePath`:
`filepath.Join(dir, fmt.Sprintf("%s_%d%s", name, i, ext))`. -/
def uniqueCandidate (filePath : Str) (i : Nat) : Str :=
  filepathJoin (filepathDir filePath)
    (trimSuffix (filepathBase filePath) (filepathExt filePath)
      ++ '_' :: (natToDec i ++ filepathExt filePath))

/-- Every probe candidate decomposes as a fixed prefix, the rendered index,
and a fixed suffix — hence distinct indices give distinct candidates. -/
theorem uniqueCandidate_form (p : Str) :
    ∃ P E, ∀ i, uniqueCandidate p i = P ++ (natToDec i ++ E) := by
  rcases filepathBase_cases p with hbase | hbase
  · obtain ⟨hpne, hall⟩ := filepathBase_slash p hbase
    have hext : filepathExt p = [] := by
      rcases hq : p.reverse with _ | ⟨c, cs⟩
      · exact absurd (by simpa using congrArg List.reverse hq) hpne
      · have hc : c = '/' := hall c (by rw [← List.mem_reverse, hq]; simp)
        rw [filepathExt, hq, extAux, if_pos hc]
    have hdir : filepathDir p = ['/'] := by
      rcases hq : p.reverse with _ | ⟨c, cs⟩
      · exact absurd (by simpa using congrArg List.reverse hq) hpne
      have hc : c = '/' := hall c (by rw [← List.mem_reverse, hq]; simp)
      have hdp : dirPart p = p := by
        rw [dirPart, hq, List.dropWhile_cons]
        simp only [hc, decide_not]
        have hp2 := congrArg List.reverse hq
        simp only [List.reverse_reverse, List.reverse_cons] at hp2
        simp [hp2, hc]
      rw [filepathDir, hdp]
      exact pathClean_all_slash p hpne hall
    have hname : trimSuffix (filepathBase p) (filepathExt p) = ['/'] := by
      rw [hbase, hext]
      decide
    obtain ⟨P, hP⟩ := pathClean_elem_form ['/'] (by simp)
    refine ⟨P ++ ['_'], [], ?_⟩
    intro i
    rw [uniqueCandidate, hdir, hname, hext, filepathJoin]
    rw [if_neg (by simp), if_neg (by simp), if_neg (by simp)]
    have : (['/'] ++ '_' :: (natToDec i ++ [])) = ('/' :: '_' :: natToDec i : Str) := by simp
    rw [this]
    rw [show (['/'] ++ '/' :: '/' :: '_' :: natToDec i : Str)
        = ['/'] ++ '/' :: '/' :: ('_' :: natToDec i) from rfl]
    rw [pathClean_slash_slash ['/'] (by simp) ('_' :: natToDec i)]
    rw [hP ('_' :: natToDec i)
      (by simpa using slash_not_mem_natToDec i) (by simp)
      (by simp) (by intro hcontra; injection hcontra with h1 h2; exact absurd h1 (by decide))]
    simp
  · have hnname : '/' ∉ trimSuffix (filepathBase p) (filepathExt p) := by
      rw [trimSuffix]
      split
      · intro hmem
        exact hbase (List.take_subset _ _ hmem)
      · exact hbase
    obtain ⟨P, hP⟩ := pathClean_elem_form (filepathDir p) (pathClean_ne_nil _)
    refine ⟨P ++ trimSuffix (filepathBase p) (filepathExt p) ++ ['_'], filepathExt p, ?_⟩
    intro i
    have hslash : '/' ∉ trimSuffix (filepathBase p) (filepathExt p)
        ++ '_' :: (natToDec i ++ filepathExt p) := by
      intro hmem
      rcases List.mem_append.mp hmem with h1 | h1
      · exact hnname h1
      · rcases List.mem_cons.mp h1 with h2 | h2
        · exact absurd h2 (by decide)
        · rcases List.mem_append.mp h2 with h3 | h3
          · exact slash_not_mem_natToDec i h3
          · exact filepathExt_no_slash p h3
    have hus : '_' ∈ trimSuffix (filepathBase p) (filepathExt p)
        ++ '_' :: (natToDec i ++ filepathExt p) := by simp
    rw [uniqueCandidate, filepathJoin]
    rw [if_neg (by simp [pathClean_ne_nil (dirPart p), filepathDir]),
      if_neg (by simp [pathClean_ne_nil (dirPart p), filepathDir]),
      if_neg (by simp)]
    rw [hP _ hslash (by simp)
      (fun hcontra => by rw [hcontra] at hus; simp at hus)
      (fun hcontra => by rw [hcontra] at hus; simp at hus)]
    simp

theorem range_escapes_list (f : Nat → Str) (hf : Function.Injective f) (l : List Str) :
    ∃ n, f n ∉ l := by
  by_contra h
  push_neg at h
  have h1 : Set.range f ⊆ ↑l.toFinset := by
    rintro x ⟨n, hn⟩
    rw [← hn]
    exact List.mem_toFinset.mpr (h n)
  have h2 : (Set.range f).Infinite := Set.infinite_range_of_injective hf
  exact h2 (l.toFinset.finite_toSet.subset h1)

/-- The Go probe loop in `getUniqueFilePath` terminates: some candidate is
outside any (finite) filesystem. -/
theorem uniqueCandidate_fresh (fs : List Str) (p : Str) :
    ∃ n, uniqueCandidate p (n + 1) ∉ fs := by
  obtain ⟨P, E, hform⟩ := uniqueCandidate_form p
  have hinj : Function.Injective (fun n => uniqueCandidate p (n + 1)) := by
    intro a b hab
    simp only [hform] at hab
    have h1 := List.append_cancel_left hab
    have h2 := List.append_cancel_right h1
    have := natToDec_injective h2
    omega
  exact range_escapes_list _ hinj fs

/-- `getUniqueFilePath` (main.go) over a filesystem modelled as the list of
existing paths: return the input unchanged when absent, otherwise probe
`name_1.ext, name_2.ext, …` (the unbounded `for` loop, embedded as the
least index whose candidate is absent). -/
def getUniqueFilePath (fs : List Str) (filePath : Str) : Str :=
  if filePath ∈ fs then
    uniqueCandidate filePath (Nat.find (uniqueCandidate_fresh fs filePath) + 1)
  else filePath

theorem getUniqueFilePath_not_mem (fs : List Str) (p : Str) (h : p ∉ fs) :
    getUniqueFilePath fs p = p := by
  rw [getUniqueFilePath, if_neg h]

theorem getUniqueFilePath_mem (fs : List Str) (p : Str) (h : p ∈ fs) :
    ∃ i, 1 ≤ i ∧ getUniqueFilePath fs p = uniqueCandidate p i ∧
      uniqueCandidate p i ∉ fs ∧ ∀ j, 1 ≤ j → j < i → uniqueCandidate p j ∈ fs := by
  refine ⟨Nat.find (uniqueCandidate_fresh fs p) + 1, by omega, ?_, ?_, ?_⟩
  · rw [getUniqueFilePath, if_pos h]
  · exact Nat.find_spec (uniqueCandidate_fresh fs p)
  · intro j hj1 hj2
    have hmin := Nat.find_min (uniqueCandidate_fresh fs p) (m := j - 1) (by omega)
    have : j - 1 + 1 = j := by omega
    rw [this] at hmin
    exact not_not.mp hmin

/-! ## CredentialGate: `waitForFileContent` and `fileAuth` (main.go) -/

/-- `waitForFileContent` (main.go): the polling loop, one entry per ticker
observation of the secret file (`none` when `os.Stat` fails because the
file is absent, `some c` when it exists with raw content `c`); the list
ends at the context deadline (timeout / 500ms observations). A poll whose
trimmed content is empty continues the wait; exhausting the observations
is the `ctx.Done` timeout error. -/
def waitForFileContent : List (Option Str) → Except Unit Str
  | [] => .error ()
  | obs :: rest =>
    match obs with
    | none => waitForFileContent rest
    | some content =>
      if trimSpace content = [] then waitForFileContent rest
      else .ok (trimSpace content)

/-- The raw content of the secret file at the successful poll (what is on
disk at the moment `waitForFileContent` returns). -/
def fileStateAtSuccess : List (Option Str) → Option Str
  | [] => none
  | obs :: rest =>
    match obs with
    | none => fileStateAtSuccess rest
    | some content =>
      if trimSpace content = [] then fileStateAtSuccess rest else some content

/-- `os.Remove` on the tracked secret file: afterwards the file is absent,
whatever it held. -/
def osRemoveFile (_ : Option Str) : Option Str := none

/-- `fileAuth.Code` (main.go): wait for the code file, delete it, return the
trimmed code. The success value pairs the returned code with the state of
the code file immediately after the handler returns. -/
def fileAuthCode (polls : List (Option Str)) : Except Unit (Str × Option Str) :=
  match waitForFileContent polls with
  | .error e => .error e
  | .ok code => .ok (code, osRemoveFile (fileStateAtSuccess polls))

/-! ## ProgressReporter: `progressWriter` / `ProgressTracker` (main.go) -/

/-- 2 seconds in nanoseconds (Go `2 * time.Second`), the throttle threshold
of `progressWriter.Write`. -/
def progressThreshold : Int := 2000000000

/-- The `ProgressTracker` state mutated by `progressWriter.Write`
(cumulative bytes, time of the last emitted progress edit). -/
structure PWState where
  current : Int
  lastUpdate : Int
  deriving DecidableEq

/-- `progressWriter.Write` (main.go): add the written bytes; emit a progress
edit (and move `lastUpdate` to `now`) only when more than the threshold has
elapsed since the previous emission. Returns the new state and whether an
edit was emitted. -/
def progressWriterWrite (st : PWState) (n now : Int) : PWState × Bool :=
  if now - st.lastUpdate > progressThreshold then
    ({ current := st.current + n, lastUpdate := now }, true)
  else
    ({ current := st.current + n, lastUpdate := st.lastUpdate }, false)

/-- The emission times produced by a sequence of writes
(bytes, wall-clock) folded through `progressWriterWrite`. -/
def emissionTimes (st : PWState) : List (Int × Int) → List Int
  | [] => []
  | w :: rest =>
    let r := progressWriterWrite st w.1 w.2
    if r.2 then w.2 :: emissionTimes r.1 rest else emissionTimes r.1 rest

theorem emissionTimes_chain (writes : List (Int × Int)) (st : PWState) :
    List.Chain' (fun t1 t2 => progressThreshold < t2 - t1)
      (st.lastUpdate :: emissionTimes st writes) := by
  induction writes generalizing st with
  | nil => simp [emissionTimes]
  | cons w rest ih =>
    by_cases h : w.2 - st.lastUpdate > progressThreshold
    · have he : emissionTimes st (w :: rest)
          = w.2 :: emissionTimes { current := st.current + w.1, lastUpdate := w.2 } rest := by
        simp [emissionTimes, progressWriterWrite, h]
      rw [he, List.chain'_cons]
      exact ⟨h, ih { current := st.current + w.1, lastUpdate := w.2 }⟩
    · have he : emissionTimes st (w :: rest)
          = emissionTimes { current := st.current + w.1, lastUpdate := st.lastUpdate } rest := by
        simp [emissionTimes, progressWriterWrite, h]
      rw [he]
      exact ih { current := st.current + w.1, lastUpdate := st.lastUpdate }

/-- One rendered status message; the data the Go code interpolates into the
`fmt.Sprintf` text is carried structurally. -/
inductive StatusText
  | typeRejected (fileName fileExt : Str) (allowed : List Str)
  | sizeRejected (fileName : Str) (size maxSize : Int)
  | starting (fileName : Str) (size : Int)
  | connecting (fileName : Str) (size : Int)
  | createFailed (fileName : Str)
  | downloadFailed (fileName : Str)
  | progressNoTotal (fileName : Str) (current : Int)
  | progressBar (fileName : Str) (percentage : ℚ) (current total : Int) (eta : Option ℚ)
  | completed (fileName : Str) (size : Int) (folder : Str)
  deriving DecidableEq

/-- `ProgressTracker.updateProgress` (main.go): the status text of one
progress edit. The float arithmetic is modelled exactly over ℚ;
`elapsedSec` is `time.Since(pt.startTime)` in seconds. -/
def ptUpdateProgress (fileName : Str) (total current : Int) (elapsedSec : ℚ) : StatusText :=
  if total ≤ 0 then .progressNoTotal fileName current
  else
    let percentage : ℚ := (current : ℚ) / (total : ℚ) * 100
    let eta : Option ℚ :=
      if 0 < current ∧ 0 < elapsedSec then
        let bytesPerSecond : ℚ := (current : ℚ) / elapsedSec
        if 0 < bytesPerSecond then some (((total - current : Int) : ℚ) / bytesPerSecond)
        else none
      else none
    .progressBar fileName percentage current total eta

/-! ## AuthorizationRouter and DownloadOrchestrator
(`handleMessage` / `downloadDocument`, main.go), as trace-producing
functions over a small model of `gotd/td`'s update types -/

structure TgUser where
  id : Int
  accessHash : Int
  deriving DecidableEq

inductive TgPeer
  | user (userID : Int)
  | chat (chatID : Int)
  | channel (channelID : Int)
  deriving DecidableEq

inductive TgDocAttr
  | attrFilename (fileName : Str)
  | attrOther
  deriving DecidableEq

structure TgDocument where
  id : Int
  accessHash : Int
  fileReference : List Nat
  size : Int
  attributes : List TgDocAttr
  deriving DecidableEq

/-- `msg.Media`: a document (whose `Document` field may fail the
`*tg.Document` type assertion, modelled by `none`) or any other media. -/
inductive TgMedia
  | mediaDocument (document : Option TgDocument)
  | mediaOther
  deriving DecidableEq

structure TgMsg where
  peerID : TgPeer
  fromID : Option TgPeer
  media : Option TgMedia
  deriving DecidableEq

/-- `update.Message`: a plain `*tg.Message` or anything else (service
message, empty message), which `handleMessage` drops at its first type
assertion. -/
inductive TgMessageClass
  | message (m : TgMsg)
  | serviceOrEmpty
  deriving DecidableEq

structure TgEntities where
  users : List TgUser
  deriving DecidableEq

/-- The configuration fields `handleMessage` reads. -/
structure Config where
  downloadFolder : Str
  channelID : Int
  allowedUserID : Int
  allowedTypes : List Str
  deriving DecidableEq

inductive InputPeer
  | peerUser (userID accessHash : Int)
  | peerChannel (channelID accessHash : Int)
  deriving DecidableEq

structure FileLocation where
  id : Int
  accessHash : Int
  fileReference : List Nat
  deriving DecidableEq

inductive LogTag
  | unauthorizedUser (senderID : Int)
  | foundDocument (senderID : Int) (fileName : Str) (size : Int)
  | rejectedType (fileName fileExt : Str)
  | rejectedSize (fileName : Str) (size : Int)
  | downloadingFile (fileName : Str)
  | downloadSuccess (path : Str) (bytes : Int)
  | sendFailed
  deriving DecidableEq

/-- One observable effect of the handler: a log line, an outbound message
send, a status-message edit, opening the destination file (`os.Create`,
with a flag recording whether a file already existed at that path and was
therefore truncated), or invoking the streaming download. -/
inductive BotAction
  | logLine (tag : LogTag)
  | sendText (peer : InputPeer) (text : StatusText)
  | editText (peer : InputPeer) (messageID : Int) (text : StatusText)
  | openDest (path : Str) (existedBefore : Bool)
  | streamDownload (location : FileLocation)
  deriving DecidableEq

/-- Effects outside the handler's control during one update: the filesystem
snapshot read by the uniqueness probe and the one at `os.Create` time
(equal in a sequential run; allowed to differ to represent the documented
check-then-create race), whether sending the initial status message
succeeded (with the extracted message id), and the outcome of the
streaming download (bytes written, or a transport error). -/
structure Env where
  fsAtResolve : List Str
  fsAtOpen : List Str
  sendStatusResult : Option Int
  streamResult : Except Unit Int

/-- `MaxFileSize` (main.go): 2 GB, the Client API limit. -/
def maxFileSize : Int := 2 * 1024 * 1024 * 1024

/-- `downloadDocument` (main.go): naming, announcing, streaming, finalizing.
`os.Create` (create-or-truncate) succeeds whether or not the path exists,
so the model records the pre-existence in the `openDest` action; the
terminal status edit on the success path is emitted unconditionally. -/
def downloadDocument (env : Env) (doc : TgDocument) (fileName0 downloadFolder : Str)
    (fileSize : Int) (peer : InputPeer) (messageID : Int) :
    List BotAction × Except Unit Unit :=
  let fileName := sanitizeFilename fileName0
  let filePath := getUniqueFilePath env.fsAtResolve (filepathJoin downloadFolder fileName)
  let finalFileName := filepathBase filePath
  let location : FileLocation := ⟨doc.id, doc.accessHash, doc.fileReference⟩
  let pre := [BotAction.editText peer messageID (.connecting finalFileName fileSize),
    BotAction.logLine (.downloadingFile finalFileName),
    BotAction.openDest filePath (decide (filePath ∈ env.fsAtOpen)),
    BotAction.streamDownload location]
  match env.streamResult with
  | .error _ =>
    (pre ++ [BotAction.editText peer messageID (.downloadFailed finalFileName)], .error ())
  | .ok bytes =>
    (pre ++ [BotAction.editText peer messageID (.completed finalFileName bytes downloadFolder),
      BotAction.logLine (.downloadSuccess filePath bytes)], .ok ())

/-- The first `DocumentAttributeFilename` among a document's attributes. -/
def firstFileName : List TgDocAttr → Option Str
  | [] => none
  | .attrFilename n :: _ => some n
  | .attrOther :: rest => firstFileName rest

/-- The filename `handleMessage` resolves: the filename attribute, or
`document_<id>` when the attribute is absent or empty. -/
def resolvedFileName (doc : TgDocument) : Str :=
  match firstFileName doc.attributes with
  | some n => if n = [] then "document_".data ++ intToDec doc.id else n
  | none => "document_".data ++ intToDec doc.id

/-- The routing steps of `handleMessage` before the authorization check:
classify the update's peer in the configured mode and resolve the reply
target and sender identity, or `none` when the update is silently dropped
(wrong channel, non-channel update in channel mode, non-private peer in
direct-message mode). -/
def resolveRouting (config : Config) (entities : TgEntities) (msg : TgMsg) :
    Option (InputPeer × Int) :=
  if config.channelID ≠ 0 then
    match msg.peerID with
    | .channel c =>
      if c ≠ config.channelID then none
      else
        some (InputPeer.peerChannel c 0,
          match msg.fromID with
          | some (.user u) => u
          | _ => 0)
    | _ => none
  else
    match msg.peerID with
    | .user u =>
      some (InputPeer.peerUser u
        (match entities.users.find? (fun e => e.id == u) with
         | some e => e.accessHash
         | none => 0), u)
    | _ => none

/-- `handleMessage` (main.go): the full per-update pipeline, returning the
trace of performed actions and the handler's return value. -/
def handleMessage (config : Config) (env : Env) (entities : TgEntities)
    (update : TgMessageClass) : List BotAction × Except Unit Unit :=
  match update with
  | .serviceOrEmpty => ([], .ok ())
  | .message msg =>
    match resolveRouting config entities msg with
    | none => ([], .ok ())
    | some (peer, senderUserID) =>
      if senderUserID ≠ config.allowedUserID then
        ([BotAction.logLine (.unauthorizedUser senderUserID)], .ok ())
      else
        match msg.media with
        | some (.mediaDocument (some doc)) =>
          let fileName := resolvedFileName doc
          let fileSize := doc.size
          let found := BotAction.logLine (.foundDocument senderUserID fileName fileSize)
          if config.allowedTypes ≠ [] ∧ ¬ isAllowedFileType fileName config.allowedTypes then
            ([found,
              BotAction.sendText peer
                (.typeRejected fileName (extForMessage fileName) config.allowedTypes),
              BotAction.logLine (.rejectedType fileName (extForMessage fileName))], .error ())
          else if fileSize > maxFileSize then
            ([found,
              BotAction.sendText peer (.sizeRejected fileName fileSize maxFileSize),
              BotAction.logLine (.rejectedSize fileName fileSize)], .error ())
          else
            let announce :=
              match env.sendStatusResult with
              | some _ => [BotAction.sendText peer (.starting fileName fileSize)]
              | none => [BotAction.sendText peer (.starting fileName fileSize),
                  BotAction.logLine .sendFailed]
            let d := downloadDocument env doc fileName config.downloadFolder fileSize peer
              ((env.sendStatusResult).getD 0)
            (found :: announce ++ d.1, d.2)
        | _ => ([], .ok ())

/-! ## Supporting lemmas for the claim theorems -/

theorem waitForFileContent_ok (polls : List (Option Str)) (s : Str)
    (h : waitForFileContent polls = .ok s) :
    s ≠ [] ∧ ∃ c, some c ∈ polls ∧ s = trimSpace c := by
  induction polls with
  | nil => simp [waitForFileContent] at h
  | cons obs rest ih =>
    rcases obs with _ | content
    · rw [waitForFileContent] at h
      obtain ⟨h1, c, h2, h3⟩ := ih h
      exact ⟨h1, c, by simp [h2], h3⟩
    · rw [waitForFileContent] at h
      by_cases hc : trimSpace content = []
      · rw [if_pos hc] at h
        obtain ⟨h1, c, h2, h3⟩ := ih h
        exact ⟨h1, c, by simp [h2], h3⟩
      · rw [if_neg hc] at h
        injection h with h
        exact ⟨h ▸ hc, content, by simp, h.symm⟩

theorem extAux_no_dot (rev acc : Str) (h : '.' ∉ rev) : extAux rev acc = [] := by
  induction rev generalizing acc with
  | nil => simp [extAux]
  | cons c rest ih =>
    have hc : c ≠ '.' := fun hc => h (by simp [hc])
    have hrest : '.' ∉ rest := fun hm => h (by simp [hm])
    by_cases hs : c = '/'
    · rw [extAux, if_pos hs]
    · rw [extAux, if_neg hs, if_neg hc]
      exact ih _ hrest

theorem filepathExt_no_dot (p : Str) (h : '.' ∉ p) : filepathExt p = [] :=
  extAux_no_dot p.reverse [] (fun hm => h (List.mem_reverse.mp hm))

theorem foldStep_not_mem (cs : List Char) (x : Char) (h : ∀ c ∈ cs, x ≠ c) :
    cs.foldl (fun y c => if y = c then '_' else y) x = x := by
  induction cs with
  | nil => rfl
  | cons c rest ih =>
    rw [List.foldl_cons, if_neg (h c (by simp))]
    exact ih (fun a ha => h a (by simp [ha]))

theorem foldl_replaceAllChar_eq_map (cs : List Char) (s : Str) :
    cs.foldl replaceAllChar s
      = s.map (fun x => cs.foldl (fun y c => if y = c then '_' else y) x) := by
  induction cs generalizing s with
  | nil => simp
  | cons c rest ih =>
    rw [List.foldl_cons, replaceAllChar, ih, List.map_map]
    rfl

theorem foldStep_invalid (x : Char) :
    invalidChars.foldl (fun y c => if y = c then '_' else y) x
      = (if x ∈ invalidChars then '_' else x) := by
  by_cases hx : x ∈ invalidChars
  · rw [if_pos hx]
    fin_cases hx <;> decide
  · rw [if_neg hx]
    exact foldStep_not_mem _ _ (fun c hc hxc => hx (hxc ▸ hc))

theorem replaced_eq_map (s : Str) :
    invalidChars.foldl replaceAllChar s
      = s.map (fun x => if x ∈ invalidChars then '_' else x) := by
  rw [foldl_replaceAllChar_eq_map]
  exact List.map_congr_left (fun x _ => foldStep_invalid x)

/-! ## Claim theorems -/

/-- C1: for every inbound update whose resolved sender identity differs
from the configured allow-listed user id, `handleMessage` performs no
download attempt and sends no outbound message of any kind: its whole
trace is the single unauthorized-user log line, and it returns nil. -/
theorem C1_unauthorized_sender_dropped_with_log_only
    (config : Config) (env : Env) (entities : TgEntities) (msg : TgMsg)
    (peer : InputPeer) (sender : Int)
    (hres : resolveRouting config entities msg = some (peer, sender))
    (hne : sender ≠ config.allowedUserID) :
    handleMessage config env entities (.message msg)
      = ([BotAction.logLine (.unauthorizedUser sender)], .ok ()) := by
  simp [handleMessage, hres, hne]

/-- Witness for C1 at a concrete unauthorized update (direct-message mode,
sender 99 against allow-listed 42). -/
theorem C1_unauthorized_witness :
    handleMessage ⟨"dl".data, 0, 42, []⟩ ⟨[], [], none, .error ()⟩ ⟨[]⟩
        (.message ⟨.user 99, none, none⟩)
      = ([BotAction.logLine (.unauthorizedUser 99)], .ok ()) :=
  C1_unauthorized_sender_dropped_with_log_only ⟨"dl".data, 0, 42, []⟩
    ⟨[], [], none, .error ()⟩ ⟨[]⟩ ⟨.user 99, none, none⟩
    (.peerUser 99 0) 99 (by decide) (by decide)

/-- C4: a document from the authorized sender whose extension is outside a
configured non-empty allow-list never reaches the streaming step, and the
trace holds exactly one outbound message — the rejection naming the
offending extension and the allowed set (no `openDest` / `streamDownload`
action occurs, as the trace equality shows). -/
theorem C4_disallowed_extension_rejected_before_streaming
    (config : Config) (env : Env) (entities : TgEntities) (msg : TgMsg)
    (peer : InputPeer) (doc : TgDocument)
    (hres : resolveRouting config entities msg = some (peer, config.allowedUserID))
    (hmedia : msg.media = some (.mediaDocument (some doc)))
    (htypes : config.allowedTypes ≠ [])
    (hnot : isAllowedFileType (resolvedFileName doc) config.allowedTypes = false) :
    handleMessage config env entities (.message msg)
      = ([BotAction.logLine
            (.foundDocument config.allowedUserID (resolvedFileName doc) doc.size),
          BotAction.sendText peer (.typeRejected (resolvedFileName doc)
            (extForMessage (resolvedFileName doc)) config.allowedTypes),
          BotAction.logLine (.rejectedType (resolvedFileName doc)
            (extForMessage (resolvedFileName doc)))], .error ()) := by
  simp [handleMessage, hres, hmedia, htypes, hnot]

/-- Witness for C4: "a.exe" against allow-list {pdf}. -/
theorem C4_disallowed_extension_witness :
    handleMessage ⟨"dl".data, 0, 42, ["pdf".data]⟩ ⟨[], [], some 7, .ok 5⟩ ⟨[]⟩
        (.message ⟨.user 42, none,
          some (.mediaDocument (some ⟨1, 2, [], 5, [.attrFilename "a.exe".data]⟩))⟩)
      = ([BotAction.logLine (.foundDocument 42 "a.exe".data 5),
          BotAction.sendText (.peerUser 42 0) (.typeRejected "a.exe".data "exe".data
            ["pdf".data]),
          BotAction.logLine (.rejectedType "a.exe".data "exe".data)], .error ()) := by
  have h := C4_disallowed_extension_rejected_before_streaming
    ⟨"dl".data, 0, 42, ["pdf".data]⟩ ⟨[], [], some 7, .ok 5⟩ ⟨[]⟩
    ⟨.user 42, none,
      some (.mediaDocument (some ⟨1, 2, [], 5, [.attrFilename "a.exe".data]⟩))⟩
    (.peerUser 42 0) ⟨1, 2, [], 5, [.attrFilename "a.exe".data]⟩
    (by decide) (by decide) (by decide) (by decide)
  simpa using h

theorem extForMessage_no_dot (fileName : Str) (h : '.' ∉ fileName) :
    extForMessage fileName = [] := by
  rw [extForMessage, filepathExt_no_dot fileName h]
  simp [toLowerStr]

theorem isAllowedFileType_no_dot (fileName : Str) (allowed : List Str)
    (hne : allowed ≠ []) (hnonempty : ∀ e ∈ allowed, e ≠ []) (h : '.' ∉ fileName) :
    isAllowedFileType fileName allowed = false := by
  rw [isAllowedFileType, if_neg hne]
  simp only [filepathExt_no_dot fileName h, toLowerStr, List.map_nil]
  rw [if_neg (by simp)]
  have hno : ([] : Str) ∉ allowed := fun hmem => (hnonempty [] hmem) rfl
  simpa using hno

/-- C10: a document from the authorized sender whose filename has no dot
gets the empty extension, so with a non-empty allow-list of non-empty
entries it is rejected before the streaming step, and the single rejection
message names the empty extension. -/
theorem C10_dotless_filename_rejected_with_empty_extension
    (config : Config) (env : Env) (entities : TgEntities) (msg : TgMsg)
    (peer : InputPeer) (doc : TgDocument)
    (hres : resolveRouting config entities msg = some (peer, config.allowedUserID))
    (hmedia : msg.media = some (.mediaDocument (some doc)))
    (hnodot : '.' ∉ resolvedFileName doc)
    (htypes : config.allowedTypes ≠ [])
    (hentries : ∀ e ∈ config.allowedTypes, e ≠ []) :
    handleMessage config env entities (.message msg)
      = ([BotAction.logLine
            (.foundDocument config.allowedUserID (resolvedFileName doc) doc.size),
          BotAction.sendText peer
            (.typeRejected (resolvedFileName doc) [] config.allowedTypes),
          BotAction.logLine (.rejectedType (resolvedFileName doc) [])], .error ()) := by
  have hnot := isAllowedFileType_no_dot _ _ htypes hentries hnodot
  have hext := extForMessage_no_dot _ hnodot
  simp [handleMessage, hres, hmedia, htypes, hnot, hext]

/-- Witness for C10: "README" against allow-list {pdf}. -/
theorem C10_dotless_filename_witness :
    handleMessage ⟨"dl".data, 0, 42, ["pdf".data]⟩ ⟨[], [], some 7, .ok 5⟩ ⟨[]⟩
        (.message ⟨.user 42, none,
          some (.mediaDocument (some ⟨1, 2, [], 5, [.attrFilename "README".data]⟩))⟩)
      = ([BotAction.logLine (.foundDocument 42 "README".data 5),
          BotAction.sendText (.peerUser 42 0)
            (.typeRejected "README".data [] ["pdf".data]),
          BotAction.logLine (.rejectedType "README".data [])], .error ()) := by
  have h := C10_dotless_filename_rejected_with_empty_extension
    ⟨"dl".data, 0, 42, ["pdf".data]⟩ ⟨[], [], some 7, .ok 5⟩ ⟨[]⟩
    ⟨.user 42, none,
      some (.mediaDocument (some ⟨1, 2, [], 5, [.attrFilename "README".data]⟩))⟩
    (.peerUser 42 0) ⟨1, 2, [], 5, [.attrFilename "README".data]⟩
    (by decide) (by decide) (by decide) (by decide) (by decide)
  simpa using h

/-- Recognizer for the file-creation-error status edit (the message
`downloadDocument` would send if `os.Create` returned an error). -/
def isCreateFailedEdit : BotAction → Bool
  | .editText _ _ (.createFailed _) => true
  | _ => false

/-- C5 counterexample: a concrete run in which a file already exists at the
uniquely-resolved path at the moment the local file is opened, yet the open
succeeds (truncating the existing file — `openDest … true`), no
file-creation-error path is taken, and the download completes. This
refutes the claim that the destination is opened with exclusive-creation
semantics: `os.Create` is create-or-truncate. -/
theorem C5_create_truncates_counterexample :
    (BotAction.openDest "dl/a.txt".data true ∈
      (downloadDocument ⟨[], ["dl/a.txt".data], some 7, .ok 5⟩
        ⟨1, 2, [], 5, [.attrFilename "a.txt".data]⟩ "a.txt".data "dl".data 5
        (.peerUser 42 0) 7).1) ∧
    (∀ a ∈ (downloadDocument ⟨[], ["dl/a.txt".data], some 7, .ok 5⟩
        ⟨1, 2, [], 5, [.attrFilename "a.txt".data]⟩ "a.txt".data "dl".data 5
        (.peerUser 42 0) 7).1, isCreateFailedEdit a = false) ∧
    (downloadDocument ⟨[], ["dl/a.txt".data], some 7, .ok 5⟩
        ⟨1, 2, [], 5, [.attrFilename "a.txt".data]⟩ "a.txt".data "dl".data 5
        (.peerUser 42 0) 7).2 = .ok () := by
  refine ⟨by decide, by decide, rfl⟩

/-- C5 (amended): in the Streaming step the destination file is opened with
`os.Create`'s create-or-truncate semantics. When a file exists at the
uniquely-resolved path at the moment of the open, the open succeeds and the
existing file is truncated (recorded as `openDest path true`), the
file-creation error path is not taken, and the run's outcome is decided by
the streaming result alone. -/
theorem C5_amended_create_or_truncate
    (env : Env) (doc : TgDocument) (fileName0 downloadFolder : Str) (fileSize : Int)
    (peer : InputPeer) (messageID : Int)
    (hexist : getUniqueFilePath env.fsAtResolve
        (filepathJoin downloadFolder (sanitizeFilename fileName0)) ∈ env.fsAtOpen) :
    BotAction.openDest (getUniqueFilePath env.fsAtResolve
        (filepathJoin downloadFolder (sanitizeFilename fileName0))) true
      ∈ (downloadDocument env doc fileName0 downloadFolder fileSize peer messageID).1 ∧
    (∀ a ∈ (downloadDocument env doc fileName0 downloadFolder fileSize peer messageID).1,
      isCreateFailedEdit a = false) ∧
    (downloadDocument env doc fileName0 downloadFolder fileSize peer messageID).2
      = Except.map (fun _ => ()) env.streamResult := by
  rcases hsr : env.streamResult with e | b <;>
    simp [downloadDocument, hsr, hexist, isCreateFailedEdit, Except.map]

/-- Witness for the amended C5 at a concrete pre-existing destination. -/
theorem C5_amended_witness :
    BotAction.openDest "dl/a.txt".data true ∈
      (downloadDocument ⟨[], ["dl/a.txt".data], none, .error ()⟩
        ⟨1, 2, [], 5, []⟩ "a.txt".data "dl".data 5 (.peerUser 42 0) 0).1 :=
  (C5_amended_create_or_truncate ⟨[], ["dl/a.txt".data], none, .error ()⟩
    ⟨1, 2, [], 5, []⟩ "a.txt".data "dl".data 5 (.peerUser 42 0) 0 (by decide)).1

/-- C6: `getUniqueFilePath` returns a non-existing path for every existing
input, probing `name_1.ext, name_2.ext, …` in increasing numeric order and
returning the first absent candidate; a non-existing input is returned
unchanged; and, being a pure function of the path and the filesystem
snapshot, repeated calls on an unchanged filesystem give the same result. -/
theorem C6_getUniqueFilePath_first_free_candidate (fs : List Str) (p : Str) :
    (p ∉ fs → getUniqueFilePath fs p = p) ∧
    (p ∈ fs → ∃ i, 1 ≤ i ∧ getUniqueFilePath fs p = uniqueCandidate p i ∧
      uniqueCandidate p i ∉ fs ∧ ∀ j, 1 ≤ j → j < i → uniqueCandidate p j ∈ fs) ∧
    getUniqueFilePath fs p = getUniqueFilePath fs p :=
  ⟨getUniqueFilePath_not_mem fs p, getUniqueFilePath_mem fs p, rfl⟩

/-- Witness for C6: an absent path is returned unchanged, and an existing
path resolves to the first free numbered candidate. -/
theorem C6_getUniqueFilePath_witness :
    ("a.txt".data ∉ (["b.txt".data] : List Str) ∧
      getUniqueFilePath ["b.txt".data] "a.txt".data = "a.txt".data) ∧
    ("a.txt".data ∈ (["a.txt".data] : List Str) ∧
      ∃ i, 1 ≤ i ∧ getUniqueFilePath ["a.txt".data] "a.txt".data
          = uniqueCandidate "a.txt".data i ∧
        uniqueCandidate "a.txt".data i ∉ (["a.txt".data] : List Str) ∧
        ∀ j, 1 ≤ j → j < i → uniqueCandidate "a.txt".data j ∈ (["a.txt".data] : List Str)) :=
  ⟨⟨by decide, (C6_getUniqueFilePath_first_free_candidate ["b.txt".data] "a.txt".data).1
      (by decide)⟩,
   ⟨by decide, (C6_getUniqueFilePath_first_free_candidate ["a.txt".data] "a.txt".data).2.1
      (by decide)⟩⟩

/-- C7: `sanitizeFilename` replaces every occurrence of the invalid
characters by an underscore — so none of them survives in the result — then
trims leading and trailing spaces and dots, and falls back to the fixed
placeholder `"unnamed_file"` exactly when the trimmed result is empty. -/
theorem C7_sanitizeFilename_spec (s : Str) :
    (∀ c ∈ invalidChars, c ∉ sanitizeFilename s) ∧
    sanitizeFilename s
      = (if trimChars (s.map (fun c => if c ∈ invalidChars then '_' else c)) [' ', '.'] = []
         then "unnamed_file".data
         else trimChars (s.map (fun c => if c ∈ invalidChars then '_' else c)) [' ', '.']) := by
  have heq : sanitizeFilename s
      = (if trimChars (s.map (fun c => if c ∈ invalidChars then '_' else c)) [' ', '.'] = []
         then "unnamed_file".data
         else trimChars (s.map (fun c => if c ∈ invalidChars then '_' else c)) [' ', '.']) := by
    rw [sanitizeFilename, replaced_eq_map]
  refine ⟨?_, heq⟩
  intro c hc hmem
  rw [heq] at hmem
  by_cases hnil : trimChars (s.map (fun c => if c ∈ invalidChars then '_' else c)) [' ', '.'] = []
  · rw [if_pos hnil] at hmem
    fin_cases hc <;> simp_all
  · rw [if_neg hnil] at hmem
    have hsub := trimChars_sublist (s.map (fun c => if c ∈ invalidChars then '_' else c)) [' ', '.']
    have hmem2 := hsub.subset hmem
    obtain ⟨x, _, hx⟩ := List.mem_map.mp hmem2
    by_cases hxi : x ∈ invalidChars
    · rw [if_pos hxi] at hx
      rw [← hx] at hc
      exact absurd hc (by decide)
    · rw [if_neg hxi] at hx
      rw [← hx] at hc
      exact hxi hc

/-- Witness for C7 at a concrete filename with invalid characters. -/
theorem C7_sanitizeFilename_witness :
    ('/' ∈ invalidChars ∧ '/' ∉ sanitizeFilename " a/b:c. ".data) ∧
    sanitizeFilename " a/b:c. ".data
      = (if trimChars (" a/b:c. ".data.map (fun c => if c ∈ invalidChars then '_' else c))
            [' ', '.'] = []
         then "unnamed_file".data
         else trimChars (" a/b:c. ".data.map (fun c => if c ∈ invalidChars then '_' else c))
            [' ', '.']) :=
  ⟨⟨by decide, (C7_sanitizeFilename_spec " a/b:c. ".data).1 '/' (by decide)⟩,
   (C7_sanitizeFilename_spec " a/b:c. ".data).2⟩

/-- C2: whenever `fileAuth.Code`'s wait succeeds on a secret file holding
non-empty (trimmed) content written before the deadline, it returns the
file's content with surrounding whitespace trimmed, and the secret file no
longer exists immediately afterward — the deletion is unconditional on
success, independent of whether the secret later validates downstream. -/
theorem C2_fileAuthCode_trims_and_deletes
    (polls : List (Option Str)) (code : Str) (fileAfter : Option Str)
    (h : fileAuthCode polls = .ok (code, fileAfter)) :
    fileAfter = none ∧ code ≠ [] ∧ ∃ c, some c ∈ polls ∧ code = trimSpace c := by
  rw [fileAuthCode] at h
  rcases hw : waitForFileContent polls with e | s
  · rw [hw] at h
    simp at h
  · rw [hw] at h
    injection h with h
    injection h with h1 h2
    obtain ⟨hne, c, hc, hs⟩ := waitForFileContent_ok polls s hw
    exact ⟨h2.symm, h1 ▸ hne, c, hc, h1 ▸ hs⟩

/-- Witness for C2: the operator writes `" 123 "` at the second poll. -/
theorem C2_fileAuthCode_witness :
    fileAuthCode [none, some " 123 ".data] = .ok ("123".data, none) ∧
    (none : Option Str) = none ∧ "123".data ≠ [] ∧
      ∃ c, some c ∈ [none, some " 123 ".data] ∧ "123".data = trimSpace c :=
  ⟨by rfl,
   C2_fileAuthCode_trims_and_deletes [none, some " 123 ".data] "123".data none (by rfl)⟩

/-- C3: `waitForFileContent` yields the timeout error when no poll before
the deadline observes non-empty (trimmed) content; it never returns an
empty secret; and a poll observing an existing-but-empty file merely
continues the wait (removing such an observation does not change the
outcome). The bounded observation list is the bounded deadline itself: the
fold terminates at the end of the list, so the wait cannot hang past it. -/
theorem C3_waitForFileContent_timeout_and_nonempty (polls : List (Option Str)) :
    ((∀ c, some c ∈ polls → trimSpace c = []) → waitForFileContent polls = .error ()) ∧
    (∀ s, waitForFileContent polls = .ok s → s ≠ []) ∧
    (∀ pre c post, trimSpace c = [] →
      waitForFileContent (pre ++ some c :: post) = waitForFileContent (pre ++ post)) := by
  refine ⟨?_, ?_, ?_⟩
  · intro hall
    induction polls with
    | nil => rfl
    | cons obs rest ih =>
      rcases obs with _ | content
      · rw [waitForFileContent]
        exact ih (fun c hc => hall c (by simp [hc]))
      · rw [waitForFileContent, if_pos (hall content (by simp))]
        exact ih (fun c hc => hall c (by simp [hc]))
  · intro s hs
    exact (waitForFileContent_ok polls s hs).1
  · intro pre c post hc
    induction pre with
    | nil =>
      rw [List.nil_append, List.nil_append, waitForFileContent, if_pos hc]
    | cons obs rest ih =>
      rcases obs with _ | content
      · rw [List.cons_append, List.cons_append, waitForFileContent, ih]
        rw [waitForFileContent]
      · by_cases hcc : trimSpace content = []
        · rw [List.cons_append, List.cons_append, waitForFileContent, if_pos hcc, ih]
          rw [waitForFileContent, if_pos hcc]
        · rw [List.cons_append, List.cons_append, waitForFileContent, if_neg hcc]
          rw [waitForFileContent, if_neg hcc]

/-- Witness for C3: a five-tick run with only an empty file observation
times out; removing the empty observation leaves the outcome unchanged. -/
theorem C3_waitForFileContent_witness :
    waitForFileContent [none, some "  ".data, none] = .error () ∧
    waitForFileContent ([none] ++ some "  ".data :: [some " 7 ".data])
      = waitForFileContent ([none] ++ [some " 7 ".data]) :=
  ⟨(C3_waitForFileContent_timeout_and_nonempty [none, some "  ".data, none]).1
      (by intro c hc; simp at hc; subst hc; decide),
   (C3_waitForFileContent_timeout_and_nonempty []).2.2 [none] "  ".data [some " 7 ".data]
      (by decide)⟩

/-- C8: within one download session a progress edit is emitted on a write
only when more than the 2-second threshold has elapsed since the previous
emission, so successive emission times (here prepended with the session's
initial `lastUpdate`) always differ by more than the threshold; the
terminal completion summary of `downloadDocument` is exempt from the
throttle and is always emitted on the success path. -/
theorem C8_progress_emissions_throttled
    (st : PWState) (writes : List (Int × Int))
    (env : Env) (doc : TgDocument) (fileName0 downloadFolder : Str) (fileSize : Int)
    (peer : InputPeer) (messageID : Int) (bytes : Int)
    (hok : env.streamResult = .ok bytes) :
    List.Chain' (fun t1 t2 => progressThreshold < t2 - t1)
      (st.lastUpdate :: emissionTimes st writes) ∧
    BotAction.editText peer messageID
        (.completed (filepathBase (getUniqueFilePath env.fsAtResolve
          (filepathJoin downloadFolder (sanitizeFilename fileName0)))) bytes downloadFolder)
      ∈ (downloadDocument env doc fileName0 downloadFolder fileSize peer messageID).1 := by
  refine ⟨emissionTimes_chain writes st, ?_⟩
  simp [downloadDocument, hok]

/-- Witness for C8 at a concrete write schedule and successful download. -/
theorem C8_progress_emissions_witness :
    List.Chain' (fun t1 t2 => progressThreshold < t2 - t1)
      ((⟨0, 0⟩ : PWState).lastUpdate ::
        emissionTimes ⟨0, 0⟩ [(100, 3000000000), (100, 3500000000), (100, 6000000000)]) ∧
    BotAction.editText (.peerUser 42 0) 7
        (.completed (filepathBase (getUniqueFilePath []
          (filepathJoin "dl".data (sanitizeFilename "a.txt".data)))) 5 "dl".data)
      ∈ (downloadDocument ⟨[], [], some 7, .ok 5⟩ ⟨1, 2, [], 5, []⟩
          "a.txt".data "dl".data 5 (.peerUser 42 0) 7).1 :=
  C8_progress_emissions_throttled ⟨0, 0⟩
    [(100, 3000000000), (100, 3500000000), (100, 6000000000)]
    ⟨[], [], some 7, .ok 5⟩ ⟨1, 2, [], 5, []⟩ "a.txt".data "dl".data 5
    (.peerUser 42 0) 7 5 rfl

/-- C9: when the expected total size is known and positive, the ETA carried
by the rendered progress text equals `(total - current) / (current /
elapsed_since_start)` — remaining bytes over the average throughput since
the session's start — and the ETA is omitted exactly when `current = 0` or
the elapsed time is `0`. -/
theorem C9_eta_from_average_throughput
    (fileName : Str) (total current : Int) (elapsedSec : ℚ)
    (htotal : 0 < total) (hcur : 0 ≤ current) (hel : 0 ≤ elapsedSec) :
    ptUpdateProgress fileName total current elapsedSec
      = .progressBar fileName ((current : ℚ) / (total : ℚ) * 100) current total
          (if current = 0 ∨ elapsedSec = 0 then none
           else some (((total - current : Int) : ℚ) / ((current : ℚ) / elapsedSec))) := by
  rw [ptUpdateProgress, if_neg (by omega : ¬ total ≤ 0)]
  by_cases h1 : current = 0 ∨ elapsedSec = 0
  · rw [if_pos h1, if_neg ?hguard]
    case hguard =>
      rintro ⟨hc, he⟩
      rcases h1 with h1 | h1
      · omega
      · exact absurd h1 (ne_of_gt he)
  · push_neg at h1
    have hc : 0 < current := lt_of_le_of_ne hcur (Ne.symm h1.1)
    have he : 0 < elapsedSec := lt_of_le_of_ne hel (Ne.symm h1.2)
    have hbps : 0 < (current : ℚ) / elapsedSec :=
      div_pos (by exact_mod_cast hc) he
    rw [if_pos (show (0 < current ∧ 0 < elapsedSec) from ⟨hc, he⟩), if_pos hbps,
      if_neg (show ¬(current = 0 ∨ elapsedSec = 0) by simp [h1.1, h1.2])]

/-- Witness for C9: 1000-byte total, 100 bytes after 2 s gives an 18 s ETA;
0 bytes gives no ETA. -/
theorem C9_eta_witness :
    ptUpdateProgress "f".data 1000 100 2
      = .progressBar "f".data ((100 : ℚ) / (1000 : ℚ) * 100) 100 1000
          (some (((1000 - 100 : Int) : ℚ) / ((100 : ℚ) / 2))) ∧
    ptUpdateProgress "f".data 1000 0 2
      = .progressBar "f".data ((0 : ℚ) / (1000 : ℚ) * 100) 0 1000 none := by
  constructor
  · have h := C9_eta_from_average_throughput "f".data 1000 100 2
      (by norm_num) (by norm_num) (by norm_num)
    simpa using h
  · have h := C9_eta_from_average_throughput "f".data 1000 0 2
      (by norm_num) (by norm_num) (by norm_num)
    simpa using h
